import Mathlib

/-!
# MNDP packet decoder (`pkg.go`)

A shallow embedding of `DecodePacket` and `MMDPTLVType.String` from `pkg.go`,
followed by theorems about them.

Modelling conventions

* A byte is a `Fin 256`; a `[]byte` is a `List Byte`.
* `uint16` / `uint32` values are natural numbers; they are built from two or
  four bytes, so they are always in range.
* The `bytes.Reader` is represented by the list of bytes it has not yet
  handed out (`contents[i:]`); a read returns the bytes read together with the
  new unread list.
* `time.Duration` is a signed 64-bit count of nanoseconds, an `Int` wrapped by
  `wrapInt64`.
* Go's `(nil, err)` / `(&pkt, nil)` result pair is an `Except IOError MMDPPacket`.
-/

namespace mndp

/-! ## Data model -/

abbrev Byte := Fin 256

/-- The two sentinel errors of package `io` that a read from a `bytes.Reader`
can return. -/
inductive IOError where
  | EOF
  | ErrUnexpectedEOF
  deriving DecidableEq, Repr

/-- The type `MMDPTLVType`, a `uint16`. -/
abbrev MMDPTLVType := Nat

def MMDPTypeMACAddress : MMDPTLVType := 1
def MMDPTypeIdentity : MMDPTLVType := 5
def MMDPTypeVersion : MMDPTLVType := 7
def MMDPTypePlatform : MMDPTLVType := 8
def MMDPTypeUptime : MMDPTLVType := 10
def MMDPTypeSoftwareID : MMDPTLVType := 11
def MMDPTypeBoard : MMDPTLVType := 12
def MMDPTypeUnpack : MMDPTLVType := 14
def MMDPTypeIPv6Address : MMDPTLVType := 15
def MMDPTypeInterfaceName : MMDPTLVType := 16
def MMDPTypeIPv4Address : MMDPTLVType := 17

/-- The dynamic types stored in `MMDPPart.Value` (an `interface{}`):
`net.HardwareAddr`, `string`, `time.Duration`, `[]byte` and `net.IP`.
A Go `string` is an arbitrary byte sequence, so it is kept as bytes. -/
inductive Value where
  | HardwareAddr (mac : List Byte)
  | Str (s : List Byte)
  | Duration (ns : Int)
  | Bytes (b : List Byte)
  | IP (ip : List Byte)
  deriving DecidableEq, Repr

/-- The field `Type` of the source is `Typ` here (`Type` is reserved). -/
structure MMDPPart where
  Typ : MMDPTLVType
  Value : Value
  deriving DecidableEq, Repr

structure MMDPPacket where
  SeqNo : Nat
  Parts : List MMDPPart
  deriving DecidableEq, Repr

/-! ## Library primitives used by the decoder -/

/-- Model of `io.ReadFull(breader, buf)` with `len(buf) = n` on a `bytes.Reader` whose
unread bytes are `r`: all `n` bytes when they are there (also for `n = 0`, at
the end of the input too), `io.EOF` when nothing at all could be read,
`io.ErrUnexpectedEOF` when only part of the bytes were there. -/
def readFull (n : Nat) (r : List Byte) : Except IOError (List Byte × List Byte) :=
  if n ≤ r.length then .ok (r.take n, r.drop n)
  else if r.length = 0 then .error .EOF
  else .error .ErrUnexpectedEOF

/-- The function `binary.LittleEndian.Uint32`. -/
def littleEndianUint32 (bs : List Byte) : Nat :=
  match bs with
  | [b0, b1, b2, b3] => b0.val + 256 * b1.val + 65536 * b2.val + 16777216 * b3.val
  | _ => 0

/-- The function `binary.BigEndian.Uint16`. -/
def bigEndianUint16 (bs : List Byte) : Nat :=
  match bs with
  | [b0, b1] => 256 * b0.val + b1.val
  | _ => 0

/-- The call `binary.Read(breader, binary.LittleEndian, &x)` for a `uint32` `x`. -/
def binaryReadLittleEndianUint32 (r : List Byte) : Except IOError (Nat × List Byte) :=
  match readFull 4 r with
  | .error e => .error e
  | .ok (bs, r1) => .ok (littleEndianUint32 bs, r1)

/-- The call `binary.Read(breader, binary.BigEndian, &x)` for a 16-bit `x`
(`MMDPTLVType` or `uint16`). -/
def binaryReadBigEndianUint16 (r : List Byte) : Except IOError (Nat × List Byte) :=
  match readFull 2 r with
  | .error e => .error e
  | .ok (bs, r1) => .ok (bigEndianUint16 bs, r1)

/-- Two's-complement wrap of an integer to `int64`. -/
def wrapInt64 (x : Int) : Int := (x + 9223372036854775808) % 18446744073709551616 - 9223372036854775808

/-- The constant `time.Second`, in nanoseconds. -/
def timeSecond : Int := 1000000000

/-- The value `time.Duration(time.Second * time.Duration(t))` for a `uint32` `t`. -/
def uptimeDuration (t : Nat) : Int := wrapInt64 (timeSecond * (t : Int))

/-! ## `DecodePacket` -/

/-- The `switch Part.Type` of `DecodePacket`: reads the value of one part
from the unread bytes `r`, given its type and declared length. -/
def readPartValue (ty : MMDPTLVType) (ContentsLength : Nat) (r : List Byte) :
    Except IOError (Value × List Byte) :=
  if ty = MMDPTypeMACAddress then
    match readFull ContentsLength r with
    | .error e => .error e
    | .ok (MAC, r1) => .ok (.HardwareAddr MAC, r1)
  else if ty = MMDPTypeIdentity ∨ ty = MMDPTypeVersion ∨ ty = MMDPTypePlatform ∨
      ty = MMDPTypeSoftwareID ∨ ty = MMDPTypeBoard ∨ ty = MMDPTypeInterfaceName then
    match readFull ContentsLength r with
    | .error e => .error e
    | .ok (s, r1) => .ok (.Str s, r1)
  else if ty = MMDPTypeUptime then
    match binaryReadLittleEndianUint32 r with
    | .error e => .error e
    | .ok (t, r1) => .ok (.Duration (uptimeDuration t), r1)
  else if ty = MMDPTypeUnpack then
    match readFull ContentsLength r with
    | .error e => .error e
    | .ok (dunno, r1) => .ok (.Bytes dunno, r1)
  else if ty = MMDPTypeIPv6Address ∨ ty = MMDPTypeIPv4Address then
    match readFull ContentsLength r with
    | .error e => .error e
    | .ok (ip, r1) => .ok (.IP ip, r1)
  else
    match readFull ContentsLength r with
    | .error e => .error e
    | .ok (dunno, r1) => .ok (.Bytes dunno, r1)

theorem readFull_length {n : Nat} {r bs r1 : List Byte}
    (h : readFull n r = .ok (bs, r1)) : bs.length = n ∧ r1.length + n = r.length := by
  unfold readFull at h
  split at h
  · simp only [Except.ok.injEq, Prod.mk.injEq] at h
    obtain ⟨rfl, rfl⟩ := h
    simp only [List.length_take, List.length_drop]
    omega
  · split at h <;> simp at h

theorem binaryReadBigEndianUint16_length {r r1 : List Byte} {x : Nat}
    (h : binaryReadBigEndianUint16 r = .ok (x, r1)) : r1.length + 2 = r.length := by
  unfold binaryReadBigEndianUint16 at h
  split at h
  · simp at h
  · rename_i bs r2 hr
    simp only [Except.ok.injEq, Prod.mk.injEq] at h
    obtain ⟨-, rfl⟩ := h
    exact (readFull_length hr).2

theorem binaryReadLittleEndianUint32_length {r r1 : List Byte} {x : Nat}
    (h : binaryReadLittleEndianUint32 r = .ok (x, r1)) : r1.length + 4 = r.length := by
  unfold binaryReadLittleEndianUint32 at h
  split at h
  · simp at h
  · rename_i bs r2 hr
    simp only [Except.ok.injEq, Prod.mk.injEq] at h
    obtain ⟨-, rfl⟩ := h
    exact (readFull_length hr).2

theorem readPartValue_length {ty len : Nat} {r r1 : List Byte} {v : Value}
    (h : readPartValue ty len r = .ok (v, r1)) : r1.length ≤ r.length := by
  unfold readPartValue at h
  split_ifs at h <;> split at h <;>
    first
    | (simp at h; done)
    | (rename_i bs r2 hr
       simp only [Except.ok.injEq, Prod.mk.injEq] at h
       obtain ⟨-, rfl⟩ := h
       first
       | exact Nat.le.intro (readFull_length hr).2
       | exact Nat.le.intro (binaryReadLittleEndianUint32_length hr))

/-- The `for` loop of `DecodePacket`: `r` is what the reader has not yet
handed out, `parts` is `pkt.Parts` so far. Every iteration that goes round
again has read a type tag and a length field, so the unread bytes decrease. -/
def decodeLoop (r : List Byte) (parts : List MMDPPart) : Except IOError (List MMDPPart) :=
  match h1 : binaryReadBigEndianUint16 r with
  | .error e => if e = .EOF then .ok parts else .error e
  | .ok (ty, r1) =>
    match h2 : binaryReadBigEndianUint16 r1 with
    | .error e => .error e
    | .ok (ContentsLength, r2) =>
      match h3 : readPartValue ty ContentsLength r2 with
      | .error e => .error e
      | .ok (v, r3) => decodeLoop r3 (parts ++ [⟨ty, v⟩])
termination_by r.length
decreasing_by
  have a1 := binaryReadBigEndianUint16_length h1
  have a2 := binaryReadBigEndianUint16_length h2
  have a3 := readPartValue_length h3
  omega

/-- The function `DecodePacket(contents)`: the header read, then the loop. -/
def DecodePacket (contents : List Byte) : Except IOError MMDPPacket :=
  match binaryReadLittleEndianUint32 contents with
  | .error e => .error e
  | .ok (SeqNo, r) =>
    match decodeLoop r [] with
    | .error e => .error e
    | .ok parts => .ok ⟨SeqNo, parts⟩

/-! ## `MMDPTLVType.String` -/

/-- The digit loop of `fmt.(*fmt).fmtInteger` for base 10 on an unsigned
value without flags: digits are produced from the least significant one and
put in front of what has been produced so far. -/
def fmtInteger10 (u : Nat) (buf : List Char) : List Char :=
  if 10 ≤ u then fmtInteger10 (u / 10) (Char.ofNat (48 + (u - u / 10 * 10)) :: buf)
  else Char.ofNat (48 + u) :: buf
termination_by u
decreasing_by omega

/-- The call `fmt.Sprintf("Unknown-%d", t)`. -/
def sprintfUnknown (t : Nat) : String := "Unknown-" ++ String.mk (fmtInteger10 t [])

/-- The method `func (t MMDPTLVType) String() string`. -/
def MMDPTLVType.String (t : MMDPTLVType) : String :=
  if t = MMDPTypeMACAddress then "MACAddress"
  else if t = MMDPTypeIdentity then "Identity"
  else if t = MMDPTypeVersion then "Version"
  else if t = MMDPTypePlatform then "Platform"
  else if t = MMDPTypeUptime then "Uptime"
  else if t = MMDPTypeSoftwareID then "SoftwareID"
  else if t = MMDPTypeBoard then "Board"
  else if t = MMDPTypeUnpack then "Unpack"
  else if t = MMDPTypeIPv6Address then "IPv6Address"
  else if t = MMDPTypeInterfaceName then "InterfaceName"
  else if t = MMDPTypeIPv4Address then "IPv4Address"
  else sprintfUnknown t

/-! ## Wire-format vocabulary used to state the properties -/

/-- Conversion `byte(n)` of an unsigned integer: the low eight bits. -/
def byteOf (n : Nat) : Byte := ⟨n % 256, Nat.mod_lt n (by decide)⟩

/-- The two bytes `binary.BigEndian.PutUint16` writes for `n`. -/
def bigEndian16 (n : Nat) : List Byte := [byteOf (n / 256), byteOf n]

/-- One TLV record as it is laid out on the wire. -/
structure TLV where
  tag : Nat
  len : Nat
  payload : List Byte
  deriving DecidableEq, Repr

/-- The bytes of a record: tag, declared length, payload. -/
def TLV.encode (t : TLV) : List Byte :=
  bigEndian16 t.tag ++ bigEndian16 t.len ++ t.payload

/-- The bytes of a sequence of records, in order. -/
def encodeAll (ts : List TLV) : List Byte := (ts.map TLV.encode).flatten

/-- A complete well-formed record: 16-bit tag and declared length, payload of
the declared length, except for Uptime whose payload is 4 bytes whatever
length is declared. -/
def TLV.WellFormed (t : TLV) : Prop :=
  t.tag < 65536 ∧ t.len < 65536 ∧
    (if t.tag = MMDPTypeUptime then t.payload.length = 4 else t.payload.length = t.len)

instance (t : TLV) : Decidable t.WellFormed := by
  unfold TLV.WellFormed; infer_instance

/-- The value the dispatch table of `DecodePacket` gives for a tag and the
payload bytes of its record. -/
def valueOf (tag : Nat) (payload : List Byte) : Value :=
  if tag = 1 then .HardwareAddr payload
  else if tag = 5 ∨ tag = 7 ∨ tag = 8 ∨ tag = 11 ∨ tag = 12 ∨ tag = 16 then .Str payload
  else if tag = 10 then .Duration (uptimeDuration (littleEndianUint32 payload))
  else if tag = 15 ∨ tag = 17 then .IP payload
  else .Bytes payload

/-- The part a record decodes to. -/
def TLV.part (t : TLV) : MMDPPart := ⟨t.tag, valueOf t.tag t.payload⟩

/-- The number of payload bytes the decoder asks for after a TLV header. -/
def payloadNeed (tag len : Nat) : Nat := if tag = MMDPTypeUptime then 4 else len

/-- A tail on which a read of the loop finds no byte at all: a type tag with
nothing after it, or a TLV header with nothing after it although the decoder
asks for at least one payload byte. -/
def RanDry (tail : List Byte) : Prop :=
  tail.length = 2 ∨
    ∃ a b c d, tail = [a, b, c, d] ∧ 0 < payloadNeed (256 * a.val + b.val) (256 * c.val + d.val)

/-- A tail on which a read of the loop finds only part of the bytes it needs:
an incomplete type tag (1 byte), an incomplete length field (3 bytes), or a TLV header
with some payload bytes but fewer than the decoder asks for. -/
def CutShort (tail : List Byte) : Prop :=
  tail.length = 1 ∨ tail.length = 3 ∨
    ∃ a b c d p, tail = a :: b :: c :: d :: p ∧ p ≠ [] ∧
      p.length < payloadNeed (256 * a.val + b.val) (256 * c.val + d.val)

/-- What is left of a buffer when a read of the loop runs out of input. -/
def Stuck (tail : List Byte) : Prop := RanDry tail ∨ CutShort tail

/-- A buffer on which the read that runs out of input finds no byte at all:
the empty buffer (header read), or a header and complete records followed by
a tail on which the loop runs dry. -/
def FailsDry (b : List Byte) : Prop :=
  b = [] ∨ ∃ hd ts tail, hd.length = 4 ∧ (∀ t ∈ ts, TLV.WellFormed t) ∧
    b = hd ++ encodeAll ts ++ tail ∧ RanDry tail

/-- A buffer on which the read that runs out of input finds only part of the
bytes it needs: 1 to 3 bytes (header read), or a header and complete records
followed by a tail on which a read of the loop is cut short. -/
def FailsCutShort (b : List Byte) : Prop :=
  (1 ≤ b.length ∧ b.length ≤ 3) ∨ ∃ hd ts tail, hd.length = 4 ∧
    (∀ t ∈ ts, TLV.WellFormed t) ∧ b = hd ++ encodeAll ts ++ tail ∧ CutShort tail

/-- The number of bytes a value other than a `Duration` holds. -/
def Value.byteLength : Value → Nat
  | .HardwareAddr mac => mac.length
  | .Str s => s.length
  | .Duration _ => 0
  | .Bytes b => b.length
  | .IP ip => ip.length

/-- The number of payload bytes a part stands for on the wire: 4 for an
Uptime part, the byte length of the value for every other part. -/
def partSize (p : MMDPPart) : Nat :=
  if p.Typ = MMDPTypeUptime then 4 else p.Value.byteLength

/-- The number a string of decimal digits stands for, most significant
digit first. -/
def digitsValue (cs : List Char) : Nat :=
  cs.foldl (fun acc c => 10 * acc + (c.toNat - 48)) 0

/-- The tags that `MMDPTLVType.String` has a fixed name for. -/
def knownTags : List Nat := [1, 5, 7, 8, 10, 11, 12, 14, 15, 16, 17]

/-! ## Basic facts about the read primitives -/

theorem readFull_append (bs rest : List Byte) :
    readFull bs.length (bs ++ rest) = .ok (bs, rest) := by
  simp [readFull]

theorem readFull_short {n : Nat} {r : List Byte} (h : r.length < n) :
    readFull n r = .error (if r = [] then .EOF else .ErrUnexpectedEOF) := by
  unfold readFull
  rw [if_neg (by omega)]
  cases r <;> simp

theorem bigEndianUint16_bigEndian16 {n : Nat} (h : n < 65536) :
    bigEndianUint16 (bigEndian16 n) = n := by
  simp only [bigEndianUint16, bigEndian16, byteOf]
  omega

theorem bigEndian16_length (n : Nat) : (bigEndian16 n).length = 2 := rfl

theorem binaryReadBigEndianUint16_nil :
    binaryReadBigEndianUint16 [] = .error .EOF := rfl

theorem binaryReadBigEndianUint16_one (a : Byte) :
    binaryReadBigEndianUint16 [a] = .error .ErrUnexpectedEOF := rfl

theorem binaryReadBigEndianUint16_cons (a b : Byte) (r : List Byte) :
    binaryReadBigEndianUint16 (a :: b :: r) = .ok (256 * a.val + b.val, r) := by
  simp [binaryReadBigEndianUint16, readFull, bigEndianUint16]

theorem binaryReadBigEndianUint16_bigEndian16 {n : Nat} (h : n < 65536) (r : List Byte) :
    binaryReadBigEndianUint16 (bigEndian16 n ++ r) = .ok (n, r) := by
  have := bigEndianUint16_bigEndian16 h
  simp only [bigEndianUint16, bigEndian16] at this
  simp only [bigEndian16, List.cons_append, List.nil_append, binaryReadBigEndianUint16_cons, this]

theorem binaryReadLittleEndianUint32_append {v : List Byte} (hv : v.length = 4)
    (r : List Byte) :
    binaryReadLittleEndianUint32 (v ++ r) = .ok (littleEndianUint32 v, r) := by
  unfold binaryReadLittleEndianUint32
  have := readFull_append v r
  rw [hv] at this
  rw [this]

theorem binaryReadLittleEndianUint32_short {r : List Byte} (h : r.length < 4) :
    binaryReadLittleEndianUint32 r = .error (if r = [] then .EOF else .ErrUnexpectedEOF) := by
  unfold binaryReadLittleEndianUint32
  rw [readFull_short h]

/-- Reading the value of a record other than Uptime whose payload is there. -/
theorem readPartValue_payload {tag : Nat} (ht : tag ≠ MMDPTypeUptime) (p rest : List Byte) :
    readPartValue tag p.length (p ++ rest) = .ok (valueOf tag p, rest) := by
  have ht10 : tag ≠ 10 := ht
  clear ht
  unfold readPartValue valueOf
  simp only [MMDPTypeMACAddress, MMDPTypeIdentity, MMDPTypeVersion, MMDPTypePlatform,
    MMDPTypeSoftwareID, MMDPTypeBoard, MMDPTypeInterfaceName, MMDPTypeUptime, MMDPTypeUnpack,
    MMDPTypeIPv6Address, MMDPTypeIPv4Address, readFull_append, ht10, if_false]
  split_ifs <;> first | rfl | simp_all

/-- Reading the value of an Uptime record: four bytes, whatever is declared. -/
theorem readPartValue_uptime (len : Nat) {v : List Byte} (hv : v.length = 4)
    (rest : List Byte) :
    readPartValue MMDPTypeUptime len (v ++ rest) =
      .ok (.Duration (uptimeDuration (littleEndianUint32 v)), rest) := by
  unfold readPartValue
  simp [MMDPTypeMACAddress, MMDPTypeIdentity, MMDPTypeVersion, MMDPTypePlatform,
    MMDPTypeSoftwareID, MMDPTypeBoard, MMDPTypeInterfaceName, MMDPTypeUptime,
    binaryReadLittleEndianUint32_append hv]

/-- Reading a value when fewer bytes are left than the decoder asks for. -/
theorem readPartValue_short {tag len : Nat} {r : List Byte}
    (h : r.length < payloadNeed tag len) :
    readPartValue tag len r = .error (if r = [] then .EOF else .ErrUnexpectedEOF) := by
  unfold payloadNeed at h
  unfold readPartValue
  by_cases ht : tag = MMDPTypeUptime
  · rw [if_pos ht] at h
    subst ht
    simp [MMDPTypeMACAddress, MMDPTypeIdentity, MMDPTypeVersion, MMDPTypePlatform,
      MMDPTypeSoftwareID, MMDPTypeBoard, MMDPTypeInterfaceName, MMDPTypeUptime,
      binaryReadLittleEndianUint32_short h]
  · rw [if_neg ht] at h
    simp only [readFull_short h, ht, if_false]
    split_ifs <;> rfl

/-! ## Unfolding the loop -/

theorem decodeLoop_nil (parts : List MMDPPart) : decodeLoop [] parts = .ok parts := by
  rw [decodeLoop]
  split
  · rename_i e he
    rw [binaryReadBigEndianUint16_nil] at he
    cases he
    simp
  · rename_i ty r1 he
    rw [binaryReadBigEndianUint16_nil] at he
    cases he

theorem decodeLoop_one (a : Byte) (parts : List MMDPPart) :
    decodeLoop [a] parts = .error .ErrUnexpectedEOF := by
  rw [decodeLoop]
  split
  · rename_i e he
    rw [binaryReadBigEndianUint16_one] at he
    cases he
    simp
  · rename_i ty r1 he
    rw [binaryReadBigEndianUint16_one] at he
    cases he

/-- One round of the loop once a type tag has been read. -/
theorem decodeLoop_cons (a b : Byte) (r : List Byte) (parts : List MMDPPart) :
    decodeLoop (a :: b :: r) parts =
      match binaryReadBigEndianUint16 r with
      | .error e => .error e
      | .ok (len, r2) =>
        match readPartValue (256 * a.val + b.val) len r2 with
        | .error e => .error e
        | .ok (v, r3) => decodeLoop r3 (parts ++ [⟨256 * a.val + b.val, v⟩]) := by
  rw [decodeLoop]
  split
  · rename_i e he
    rw [binaryReadBigEndianUint16_cons] at he
    cases he
  · rename_i ty r1 he
    rw [binaryReadBigEndianUint16_cons] at he
    cases he
    split
    · rename_i e he2
      rw [he2]
    · rename_i len r2 he2
      rw [he2]
      split
      · rename_i e he3
        simp only [he3]
      · rename_i v r3 he3
        simp only [he3]

theorem decodeLoop_two (a b : Byte) (parts : List MMDPPart) :
    decodeLoop [a, b] parts = .error .EOF := by
  rw [decodeLoop_cons, binaryReadBigEndianUint16_nil]

theorem decodeLoop_three (a b c : Byte) (parts : List MMDPPart) :
    decodeLoop [a, b, c] parts = .error .ErrUnexpectedEOF := by
  rw [decodeLoop_cons, binaryReadBigEndianUint16_one]

/-- A TLV header followed by fewer payload bytes than the decoder asks for. -/
theorem decodeLoop_short (a b c d : Byte) {p : List Byte} (parts : List MMDPPart)
    (h : p.length < payloadNeed (256 * a.val + b.val) (256 * c.val + d.val)) :
    decodeLoop (a :: b :: c :: d :: p) parts =
      .error (if p = [] then .EOF else .ErrUnexpectedEOF) := by
  rw [decodeLoop_cons, binaryReadBigEndianUint16_cons]
  simp only [readPartValue_short h]

theorem valueOf_uptime (v : List Byte) :
    valueOf MMDPTypeUptime v = .Duration (uptimeDuration (littleEndianUint32 v)) := by
  simp [valueOf, MMDPTypeUptime]

/-- Reading the value of any well-formed record. -/
theorem readPartValue_wellFormed {t : TLV} (h : t.WellFormed) (rest : List Byte) :
    readPartValue t.tag t.len (t.payload ++ rest) = .ok (valueOf t.tag t.payload, rest) := by
  obtain ⟨-, -, hp⟩ := h
  by_cases ht : t.tag = MMDPTypeUptime
  · rw [if_pos ht] at hp
    rw [ht, readPartValue_uptime _ hp, valueOf_uptime]
  · rw [if_neg ht] at hp
    rw [← hp]
    exact readPartValue_payload ht _ _

/-- One complete record at the front of the unread bytes adds its part and
leaves the rest unread. -/
theorem decodeLoop_record {t : TLV} (h : t.WellFormed) (rest : List Byte)
    (parts : List MMDPPart) :
    decodeLoop (t.encode ++ rest) parts = decodeLoop rest (parts ++ [t.part]) := by
  have htag := bigEndianUint16_bigEndian16 h.1
  simp only [bigEndianUint16, bigEndian16] at htag
  have hread := binaryReadBigEndianUint16_bigEndian16 h.2.1 (t.payload ++ rest)
  simp only [TLV.encode, bigEndian16, List.cons_append, List.nil_append, List.append_assoc]
  simp only [bigEndian16, List.cons_append, List.nil_append] at hread
  rw [decodeLoop_cons, hread, htag]
  simp only [readPartValue_wellFormed h, TLV.part]

theorem encodeAll_nil : encodeAll [] = [] := rfl

theorem encodeAll_cons (t : TLV) (ts : List TLV) :
    encodeAll (t :: ts) = t.encode ++ encodeAll ts := by
  simp [encodeAll]

theorem encodeAll_append (ts us : List TLV) :
    encodeAll (ts ++ us) = encodeAll ts ++ encodeAll us := by
  simp [encodeAll]

/-- A run of complete records at the front of the unread bytes adds their
parts in order and leaves the rest unread. -/
theorem decodeLoop_records {ts : List TLV} (h : ∀ t ∈ ts, t.WellFormed) (rest : List Byte)
    (parts : List MMDPPart) :
    decodeLoop (encodeAll ts ++ rest) parts = decodeLoop rest (parts ++ ts.map TLV.part) := by
  induction ts generalizing parts with
  | nil => simp [encodeAll_nil]
  | cons t ts ih =>
    rw [encodeAll_cons, List.append_assoc, decodeLoop_record (h t (List.mem_cons_self _ _)),
      ih (fun u hu => h u (List.mem_cons_of_mem _ hu))]
    simp

/-- The header read: the first four bytes are the sequence number, the loop
runs on what follows them. -/
theorem DecodePacket_header {hd : List Byte} (hh : hd.length = 4) (body : List Byte) :
    DecodePacket (hd ++ body) =
      match decodeLoop body [] with
      | .error e => .error e
      | .ok parts => .ok ⟨littleEndianUint32 hd, parts⟩ := by
  unfold DecodePacket
  rw [binaryReadLittleEndianUint32_append hh]

theorem DecodePacket_short {contents : List Byte} (h : contents.length < 4) :
    DecodePacket contents = .error (if contents = [] then .EOF else .ErrUnexpectedEOF) := by
  unfold DecodePacket
  rw [binaryReadLittleEndianUint32_short h]

/-- Every buffer of at least four bytes is a header followed by a body. -/
theorem exists_header {contents : List Byte} (h : 4 ≤ contents.length) :
    ∃ hd body, hd.length = 4 ∧ contents = hd ++ body :=
  ⟨contents.take 4, contents.drop 4, by simp [List.length_take]; omega, by simp⟩

/-! ## Every buffer is a run of complete records followed by a tail -/

theorem byteOf_high (a b : Byte) : byteOf ((256 * a.val + b.val) / 256) = a := by
  apply Fin.ext
  simp only [byteOf]
  omega

theorem byteOf_low (a b : Byte) : byteOf (256 * a.val + b.val) = b := by
  apply Fin.ext
  simp only [byteOf]
  omega

theorem bigEndian16_pair (a b : Byte) : bigEndian16 (256 * a.val + b.val) = [a, b] := by
  simp only [bigEndian16, byteOf_high, byteOf_low]

/-- The unread bytes after the header split into complete well-formed
records and a tail that is empty or on which a read runs out of input. -/
theorem exists_records_tail (r : List Byte) :
    ∃ ts tail, (∀ t ∈ ts, TLV.WellFormed t) ∧ r = encodeAll ts ++ tail ∧
      (tail = [] ∨ Stuck tail) := by
  generalize hn : r.length = n
  induction n using Nat.strong_induction_on generalizing r with
  | _ n ih =>
    match r, hn with
    | [], _ => exact ⟨[], [], by simp, by simp [encodeAll_nil], Or.inl rfl⟩
    | [a], _ =>
      exact ⟨[], [a], by simp, by simp [encodeAll_nil], Or.inr (Or.inr (Or.inl rfl))⟩
    | [a, b], _ =>
      exact ⟨[], [a, b], by simp, by simp [encodeAll_nil], Or.inr (Or.inl (Or.inl rfl))⟩
    | [a, b, c], _ =>
      exact ⟨[], [a, b, c], by simp, by simp [encodeAll_nil],
        Or.inr (Or.inr (Or.inr (Or.inl rfl)))⟩
    | a :: b :: c :: d :: p, hn =>
      by_cases hp : p.length < payloadNeed (256 * a.val + b.val) (256 * c.val + d.val)
      · refine ⟨[], a :: b :: c :: d :: p, by simp, by simp [encodeAll_nil], Or.inr ?_⟩
        by_cases hnil : p = []
        · subst hnil
          exact Or.inl (Or.inr ⟨a, b, c, d, rfl, by simpa using hp⟩)
        · exact Or.inr (Or.inr (Or.inr ⟨a, b, c, d, p, rfl, hnil, hp⟩))
      · have hp2 : payloadNeed (256 * a.val + b.val) (256 * c.val + d.val) ≤ p.length := by
          omega
        obtain ⟨ts, tail, hts, hr, htail⟩ :=
          ih (p.drop (payloadNeed (256 * a.val + b.val) (256 * c.val + d.val))).length
            (by simp only [List.length_drop, List.length_cons] at hn ⊢; omega) _ rfl
        refine ⟨⟨256 * a.val + b.val, 256 * c.val + d.val,
          p.take (payloadNeed (256 * a.val + b.val) (256 * c.val + d.val))⟩ :: ts, tail,
          ?_, ?_, htail⟩
        · intro t ht
          rcases List.mem_cons.1 ht with rfl | ht
          · refine ⟨?_, ?_, ?_⟩
            · show 256 * a.val + b.val < 65536
              omega
            · show 256 * c.val + d.val < 65536
              omega
            · show (if 256 * a.val + b.val = MMDPTypeUptime then _ else _)
              unfold payloadNeed at hp2 ⊢
              simp only [List.length_take]
              split_ifs with h10
              · rw [if_pos h10] at hp2; omega
              · rw [if_neg h10] at hp2; omega
          · exact hts t ht
        · rw [encodeAll_cons, List.append_assoc, ← hr]
          simp only [TLV.encode, bigEndian16_pair, List.cons_append, List.nil_append,
            List.append_assoc, List.take_append_drop]

/-! ## What the loop returns on a tail -/

theorem decodeLoop_ranDry {tail : List Byte} (h : RanDry tail) (parts : List MMDPPart) :
    decodeLoop tail parts = .error .EOF := by
  rcases h with h | ⟨a, b, c, d, rfl, h⟩
  · match tail, h with
    | [a, b], _ => exact decodeLoop_two a b parts
  · have := @decodeLoop_short a b c d [] parts (by simpa using h)
    simpa using this

theorem decodeLoop_cutShort {tail : List Byte} (h : CutShort tail) (parts : List MMDPPart) :
    decodeLoop tail parts = .error .ErrUnexpectedEOF := by
  rcases h with h | h | ⟨a, b, c, d, p, rfl, hne, h⟩
  · match tail, h with
    | [a], _ => exact decodeLoop_one a parts
  · match tail, h with
    | [a, b, c], _ => exact decodeLoop_three a b c parts
  · rw [decodeLoop_short a b c d parts h, if_neg hne]

/-- The loop on complete records followed by nothing: success, with the
parts of the records in order. -/
theorem decodeLoop_encodeAll {ts : List TLV} (h : ∀ t ∈ ts, t.WellFormed) :
    decodeLoop (encodeAll ts) [] = .ok (ts.map TLV.part) := by
  have := decodeLoop_records h [] []
  simpa [decodeLoop_nil] using this

theorem decodeLoop_encodeAll_ranDry {ts : List TLV} (h : ∀ t ∈ ts, t.WellFormed)
    {tail : List Byte} (ht : RanDry tail) :
    decodeLoop (encodeAll ts ++ tail) [] = .error .EOF := by
  rw [decodeLoop_records h, decodeLoop_ranDry ht]

theorem decodeLoop_encodeAll_cutShort {ts : List TLV} (h : ∀ t ∈ ts, t.WellFormed)
    {tail : List Byte} (ht : CutShort tail) :
    decodeLoop (encodeAll ts ++ tail) [] = .error .ErrUnexpectedEOF := by
  rw [decodeLoop_records h, decodeLoop_cutShort ht]

/-- A packet made of a header and complete records decodes to the parts of
the records. -/
theorem DecodePacket_encodeAll {hd : List Byte} (hh : hd.length = 4) {ts : List TLV}
    (h : ∀ t ∈ ts, t.WellFormed) :
    DecodePacket (hd ++ encodeAll ts) = .ok ⟨littleEndianUint32 hd, ts.map TLV.part⟩ := by
  rw [DecodePacket_header hh, decodeLoop_encodeAll h]

/-- A successful decode comes from a header followed by complete records and
nothing else, and returns the parts of these records. -/
theorem DecodePacket_ok_inv {contents : List Byte} {pkt : MMDPPacket}
    (h : DecodePacket contents = .ok pkt) :
    ∃ hd ts, hd.length = 4 ∧ (∀ t ∈ ts, TLV.WellFormed t) ∧
      contents = hd ++ encodeAll ts ∧ pkt = ⟨littleEndianUint32 hd, ts.map TLV.part⟩ := by
  by_cases hlen : contents.length < 4
  · rw [DecodePacket_short hlen] at h
    cases h
  · obtain ⟨hd, body, hh, rfl⟩ := exists_header (Nat.le_of_not_lt hlen)
    obtain ⟨ts, tail, hts, rfl, htail⟩ := exists_records_tail body
    rw [DecodePacket_header hh] at h
    rcases htail with rfl | hdry | hcut
    · rw [List.append_nil, decodeLoop_encodeAll hts] at h
      simp only [Except.ok.injEq] at h
      exact ⟨hd, ts, hh, hts, by simp, h.symm⟩
    · rw [decodeLoop_encodeAll_ranDry hts hdry] at h
      cases h
    · rw [decodeLoop_encodeAll_cutShort hts hcut] at h
      cases h

/-- The parts gathered before a run of the loop stay in front of the parts
the run adds, and do not influence whether it fails. -/
theorem decodeLoop_acc (r : List Byte) (parts : List MMDPPart) :
    decodeLoop r parts =
      match decodeLoop r [] with
      | .error e => .error e
      | .ok ps => .ok (parts ++ ps) := by
  obtain ⟨ts, tail, hts, rfl, htail⟩ := exists_records_tail r
  rw [decodeLoop_records hts, decodeLoop_records hts]
  rcases htail with rfl | hdry | hcut
  · simp [decodeLoop_nil]
  · simp only [decodeLoop_ranDry hdry]
  · simp only [decodeLoop_cutShort hcut]

theorem littleEndianUint32_lt (v : List Byte) : littleEndianUint32 v < 4294967296 := by
  unfold littleEndianUint32
  split
  · omega
  · decide

/-- The multiplication `time.Second * time.Duration(t)` does not wrap for a
32-bit `t`. -/
theorem uptimeDuration_eq {t : Nat} (h : t < 4294967296) :
    uptimeDuration t = 1000000000 * (t : Int) := by
  unfold uptimeDuration wrapInt64 timeSecond
  omega

/-! ## The claims -/

/-- C1: for every byte buffer of length 0, 1, 2 or 3, `DecodePacket` fails: it
returns an error and no packet. -/
theorem C1_short_buffer_fails (contents : List Byte) (h : contents.length ≤ 3) :
    ∃ e, DecodePacket contents = .error e :=
  ⟨_, DecodePacket_short (Nat.lt_succ_of_le h)⟩

theorem C1_short_buffer_fails_witness :
    ∃ e, DecodePacket [7, 8, 9] = .error e :=
  C1_short_buffer_fails [7, 8, 9] (by decide)

/-- C2: for every buffer of exactly 4 bytes `b0 b1 b2 b3`, `DecodePacket`
succeeds with the little-endian sequence number
`b0 + 256*b1 + 65536*b2 + 16777216*b3` and an empty `Parts` sequence. -/
theorem C2_header_only (b0 b1 b2 b3 : Byte) :
    DecodePacket [b0, b1, b2, b3] =
      .ok ⟨b0.val + 256 * b1.val + 65536 * b2.val + 16777216 * b3.val, []⟩ := by
  have := @DecodePacket_header [b0, b1, b2, b3] rfl []
  rw [decodeLoop_nil] at this
  simpa [littleEndianUint32] using this

/-- C3: for every 4-byte header, every 16-bit tag `T` other than 10 and every
payload `P` of length `L ≤ 65535`, decoding
`header ++ bigEndian16 T ++ bigEndian16 L ++ P` succeeds with exactly one part,
of type `T`, whose value holds exactly the bytes `P` in the variant of the
dispatch table: `HardwareAddr` for 1, `Str` for 5, 7, 8, 11, 12, 16, `IP` for
15 and 17, `Bytes` for 14 and for every unrecognized tag. -/
theorem C3_single_record (hd : List Byte) (T L : Nat) (P : List Byte)
    (hh : hd.length = 4) (hT : T < 65536) (hT10 : T ≠ 10) (hL : L ≤ 65535)
    (hP : P.length = L) :
    ∃ v, DecodePacket (hd ++ bigEndian16 T ++ bigEndian16 L ++ P) =
        .ok ⟨littleEndianUint32 hd, [⟨T, v⟩]⟩ ∧
      (T = 1 → v = .HardwareAddr P) ∧
      (T ∈ [5, 7, 8, 11, 12, 16] → v = .Str P) ∧
      (T ∈ [15, 17] → v = .IP P) ∧
      (T = 14 ∨ T ∉ [1, 5, 7, 8, 10, 11, 12, 14, 15, 16, 17] → v = .Bytes P) := by
  have hwf : ∀ t ∈ [(⟨T, L, P⟩ : TLV)], t.WellFormed := by
    intro t ht
    rw [List.mem_singleton] at ht
    subst ht
    exact ⟨hT, by show L < 65536; omega, by simp [MMDPTypeUptime, hT10, hP]⟩
  have hdec := DecodePacket_encodeAll hh hwf
  refine ⟨valueOf T P, ?_, ?_, ?_, ?_, ?_⟩
  · simpa [encodeAll, TLV.encode, TLV.part] using hdec
  · intro h1
    simp [valueOf, h1]
  · intro h
    simp only [List.mem_cons, List.mem_singleton, List.not_mem_nil, or_false] at h
    unfold valueOf
    rw [if_neg (by omega), if_pos h]
  · intro h
    simp only [List.mem_cons, List.mem_singleton, List.not_mem_nil, or_false] at h
    unfold valueOf
    rw [if_neg (by omega), if_neg (by omega), if_neg hT10, if_pos h]
  · intro h
    simp only [List.mem_cons, List.mem_singleton, List.not_mem_nil, or_false] at h
    unfold valueOf
    rw [if_neg (by omega), if_neg (by omega), if_neg hT10, if_neg (by omega)]

theorem C3_single_record_witness :
    ∃ v, DecodePacket ([1, 0, 0, 0] ++ bigEndian16 999 ++ bigEndian16 2 ++ [0xAB, 0xCD]) =
        .ok ⟨littleEndianUint32 [1, 0, 0, 0], [⟨999, v⟩]⟩ ∧
      (999 = 1 → v = .HardwareAddr [0xAB, 0xCD]) ∧
      (999 ∈ [5, 7, 8, 11, 12, 16] → v = .Str [0xAB, 0xCD]) ∧
      (999 ∈ [15, 17] → v = .IP [0xAB, 0xCD]) ∧
      (999 = 14 ∨ 999 ∉ [1, 5, 7, 8, 10, 11, 12, 14, 15, 16, 17] → v = .Bytes [0xAB, 0xCD]) :=
  C3_single_record [1, 0, 0, 0] 999 2 [0xAB, 0xCD] rfl (by decide) (by decide) (by decide) rfl

/-- C4: for every 4-byte header `hd`, every declared length `L` in 0..65535,
every 4 bytes `v` and every `rest`, decoding
`hd ++ bigEndian16 10 ++ bigEndian16 L ++ v ++ rest` succeeds exactly when
decoding `hd ++ rest` succeeds, and then its parts are one Uptime part with a
`Duration` of `littleEndianUint32 v` seconds followed by the parts of
`hd ++ rest`; the result is the same for every declared length. -/
theorem C4_uptime_ignores_declared_length (hd v rest : List Byte) (L : Nat)
    (hh : hd.length = 4) (hL : L ≤ 65535) (hv : v.length = 4) :
    ((∃ p, DecodePacket (hd ++ bigEndian16 10 ++ bigEndian16 L ++ v ++ rest) = .ok p) ↔
        ∃ q, DecodePacket (hd ++ rest) = .ok q) ∧
      (∀ q, DecodePacket (hd ++ rest) = .ok q →
        DecodePacket (hd ++ bigEndian16 10 ++ bigEndian16 L ++ v ++ rest) =
          .ok ⟨q.SeqNo,
            ⟨10, .Duration (1000000000 * (littleEndianUint32 v : Int))⟩ :: q.Parts⟩) ∧
      (∀ L2, L2 ≤ 65535 →
        DecodePacket (hd ++ bigEndian16 10 ++ bigEndian16 L2 ++ v ++ rest) =
          DecodePacket (hd ++ bigEndian16 10 ++ bigEndian16 L ++ v ++ rest)) := by
  have key : ∀ L2, L2 ≤ 65535 →
      DecodePacket (hd ++ bigEndian16 10 ++ bigEndian16 L2 ++ v ++ rest) =
        match DecodePacket (hd ++ rest) with
        | .error e => .error e
        | .ok q => .ok ⟨q.SeqNo,
            ⟨10, .Duration (1000000000 * (littleEndianUint32 v : Int))⟩ :: q.Parts⟩ := by
    intro L2 hL2
    have hwf : TLV.WellFormed ⟨10, L2, v⟩ :=
      ⟨by show 10 < 65536; decide, by show L2 < 65536; omega, by simp [MMDPTypeUptime, hv]⟩
    have hrec := decodeLoop_record hwf rest []
    simp only [TLV.encode, TLV.part, List.nil_append] at hrec
    have hval : valueOf 10 v = .Duration (1000000000 * (littleEndianUint32 v : Int)) := by
      rw [← uptimeDuration_eq (littleEndianUint32_lt v)]
      exact valueOf_uptime v
    rw [hval, decodeLoop_acc rest] at hrec
    simp only [List.append_assoc]
    rw [DecodePacket_header hh, DecodePacket_header hh]
    simp only [List.append_assoc] at hrec
    rw [hrec]
    cases decodeLoop rest [] <;> rfl
  refine ⟨?_, ?_, ?_⟩
  · rw [key L hL]
    cases DecodePacket (hd ++ rest) <;> simp
  · intro q hq
    rw [key L hL, hq]
  · intro L2 hL2
    rw [key L2 hL2, key L hL]

theorem C4_uptime_ignores_declared_length_witness :
    DecodePacket ([1, 0, 0, 0] ++ [0, 5, 0, 1, 65]) = .ok ⟨1, [⟨5, .Str [65]⟩]⟩ ∧
      DecodePacket ([1, 0, 0, 0] ++ bigEndian16 10 ++ bigEndian16 0 ++ [100, 0, 0, 0]
          ++ [0, 5, 0, 1, 65]) =
        .ok ⟨1, [⟨10, .Duration 100000000000⟩, ⟨5, .Str [65]⟩]⟩ ∧
      DecodePacket ([1, 0, 0, 0] ++ bigEndian16 10 ++ bigEndian16 4 ++ [100, 0, 0, 0]
          ++ [0, 5, 0, 1, 65]) =
        DecodePacket ([1, 0, 0, 0] ++ bigEndian16 10 ++ bigEndian16 0 ++ [100, 0, 0, 0]
          ++ [0, 5, 0, 1, 65]) :=
  have hrest : DecodePacket ([1, 0, 0, 0] ++ [0, 5, 0, 1, 65]) = .ok ⟨1, [⟨5, .Str [65]⟩]⟩ :=
    @DecodePacket_encodeAll [1, 0, 0, 0] rfl [⟨5, 1, [65]⟩] (by decide)
  ⟨hrest,
    (C4_uptime_ignores_declared_length [1, 0, 0, 0] [100, 0, 0, 0] [0, 5, 0, 1, 65] 0 rfl
      (by decide) rfl).2.1 _ hrest,
    (C4_uptime_ignores_declared_length [1, 0, 0, 0] [100, 0, 0, 0] [0, 5, 0, 1, 65] 0 rfl
      (by decide) rfl).2.2 4 (by decide)⟩

/-- The loop on a TLV header, written with `bigEndian16`, that is followed by
fewer payload bytes than the decoder asks for. -/
theorem decodeLoop_bigEndian16_short {tag L : Nat} (ht : tag < 65536) (hL : L < 65536)
    {p : List Byte} (h : p.length < payloadNeed tag L) (parts : List MMDPPart) :
    decodeLoop (bigEndian16 tag ++ bigEndian16 L ++ p) parts =
      .error (if p = [] then .EOF else .ErrUnexpectedEOF) := by
  have h1 := bigEndianUint16_bigEndian16 ht
  have h2 := bigEndianUint16_bigEndian16 hL
  simp only [bigEndianUint16, bigEndian16] at h1 h2
  simp only [bigEndian16, List.cons_append, List.nil_append]
  apply decodeLoop_short
  rw [h1, h2]
  exact h

/-- C5: for every buffer made of a 4-byte header, zero or more complete
well-formed TLV records, and then a TLV header with a tag other than 10
declaring length `L` followed by fewer than `L` bytes, `DecodePacket` fails
and returns no packet. -/
theorem C5_truncated_payload_fails (hd : List Byte) (ts : List TLV) (tag L : Nat)
    (p : List Byte) (hh : hd.length = 4) (hts : ∀ t ∈ ts, TLV.WellFormed t)
    (htag : tag < 65536) (htag10 : tag ≠ 10) (hL : L ≤ 65535) (hp : p.length < L) :
    ∃ e, DecodePacket (hd ++ encodeAll ts ++ bigEndian16 tag ++ bigEndian16 L ++ p) =
      .error e := by
  have hneed : p.length < payloadNeed tag L := by
    unfold payloadNeed
    rw [if_neg (show ¬ tag = MMDPTypeUptime from htag10)]
    exact hp
  refine ⟨if p = [] then .EOF else .ErrUnexpectedEOF, ?_⟩
  have hassoc : hd ++ encodeAll ts ++ bigEndian16 tag ++ bigEndian16 L ++ p =
      hd ++ (encodeAll ts ++ (bigEndian16 tag ++ bigEndian16 L ++ p)) := by
    simp only [List.append_assoc]
  rw [hassoc, DecodePacket_header hh, decodeLoop_records hts,
    decodeLoop_bigEndian16_short htag (by omega) hneed]

theorem C5_truncated_payload_fails_witness :
    ∃ e, DecodePacket ([1, 0, 0, 0] ++ encodeAll [⟨5, 3, [82, 79, 83]⟩] ++ bigEndian16 7 ++
      bigEndian16 10 ++ [1, 2, 3]) = .error e :=
  C5_truncated_payload_fails [1, 0, 0, 0] [⟨5, 3, [82, 79, 83]⟩] 7 10 [1, 2, 3] rfl
    (by decide) (by decide) (by decide) (by decide) (by decide)

/-- C6: `Parts` order equals wire order, nothing reordered or deduplicated:
for every 4-byte header and every list of `n` well-formed TLV records,
decoding the header followed by the records succeeds with exactly `n` parts,
and the `i`-th part is the part that decoding the header followed by the
`i`-th record alone yields. -/
theorem C6_parts_in_wire_order (hd : List Byte) (ts : List TLV) (hh : hd.length = 4)
    (hts : ∀ t ∈ ts, TLV.WellFormed t) :
    ∃ parts, DecodePacket (hd ++ encodeAll ts) = .ok ⟨littleEndianUint32 hd, parts⟩ ∧
      parts.length = ts.length ∧
      ∀ (i : Nat) (t : TLV), ts[i]? = some t →
        ∃ p, parts[i]? = some p ∧
          DecodePacket (hd ++ t.encode) = .ok ⟨littleEndianUint32 hd, [p]⟩ := by
  refine ⟨ts.map TLV.part, DecodePacket_encodeAll hh hts, by simp, ?_⟩
  intro i t hi
  refine ⟨t.part, by simp [hi], ?_⟩
  have hmem : t ∈ ts := List.getElem?_mem hi
  have hone : ∀ u ∈ [t], TLV.WellFormed u := by
    intro u hu
    rw [List.mem_singleton] at hu
    subst hu
    exact hts _ hmem
  have := DecodePacket_encodeAll hh hone
  simpa [encodeAll] using this

theorem C6_parts_in_wire_order_witness :
    ∃ parts, DecodePacket ([1, 0, 0, 0] ++
        encodeAll [⟨5, 1, [65]⟩, ⟨10, 0, [100, 0, 0, 0]⟩, ⟨5, 1, [65]⟩]) =
          .ok ⟨littleEndianUint32 [1, 0, 0, 0], parts⟩ ∧
      parts.length = [(⟨5, 1, [65]⟩ : TLV), ⟨10, 0, [100, 0, 0, 0]⟩, ⟨5, 1, [65]⟩].length ∧
      ∀ (i : Nat) (t : TLV), [(⟨5, 1, [65]⟩ : TLV), ⟨10, 0, [100, 0, 0, 0]⟩, ⟨5, 1, [65]⟩][i]? = some t →
        ∃ p, parts[i]? = some p ∧
          DecodePacket ([1, 0, 0, 0] ++ t.encode) =
            .ok ⟨littleEndianUint32 [1, 0, 0, 0], [p]⟩ :=
  C6_parts_in_wire_order [1, 0, 0, 0] [⟨5, 1, [65]⟩, ⟨10, 0, [100, 0, 0, 0]⟩, ⟨5, 1, [65]⟩]
    rfl (by decide)

/-- C7: clean exhaustion at a type-tag boundary is the sole success-terminal
condition: for every buffer `b` on which `DecodePacket` succeeds and every
extra byte sequence `x` of length 1, 2 or 3, `DecodePacket (b ++ x)` fails. -/
theorem C7_trailing_bytes_fail (b x : List Byte) (pkt : MMDPPacket)
    (hb : DecodePacket b = .ok pkt) (hx1 : 1 ≤ x.length) (hx3 : x.length ≤ 3) :
    ∃ e, DecodePacket (b ++ x) = .error e := by
  obtain ⟨hd, ts, hh, hts, rfl, -⟩ := DecodePacket_ok_inv hb
  rw [List.append_assoc, DecodePacket_header hh, decodeLoop_records hts]
  match x, hx1, hx3 with
  | [a], _, _ => exact ⟨_, by rw [decodeLoop_one]⟩
  | [a, c], _, _ => exact ⟨_, by rw [decodeLoop_two]⟩
  | [a, c, d], _, _ => exact ⟨_, by rw [decodeLoop_three]⟩

theorem C7_trailing_bytes_fail_witness :
    ∃ e, DecodePacket ([1, 0, 0, 0, 0, 5, 0, 1, 65] ++ [0, 10]) = .error e :=
  C7_trailing_bytes_fail [1, 0, 0, 0, 0, 5, 0, 1, 65] [0, 10] ⟨1, [⟨5, .Str [65]⟩]⟩
    (@DecodePacket_encodeAll [1, 0, 0, 0] rfl [⟨5, 1, [65]⟩] (by decide))
    (by decide) (by decide)

/-! ## Type names -/

theorem digitChar_eq_ofNat {d : Nat} (h : d < 10) : Nat.digitChar d = Char.ofNat (48 + d) := by
  interval_cases d <;> rfl

/-- The digit loop of `fmtInteger` produces the digits of Lean's decimal
rendering of a natural number. -/
theorem fmtInteger10_eq_toDigitsCore (fuel u : Nat) (buf : List Char) (h : u < fuel) :
    fmtInteger10 u buf = Nat.toDigitsCore 10 fuel u buf := by
  induction fuel generalizing u buf with
  | zero => omega
  | succ fuel ih =>
    rw [fmtInteger10]
    simp only [Nat.toDigitsCore]
    have hmod : u - u / 10 * 10 = u % 10 := by omega
    by_cases hu : 10 ≤ u
    · rw [if_pos hu, if_neg (by omega), hmod, digitChar_eq_ofNat (Nat.mod_lt u (by decide))]
      exact ih _ _ (by omega)
    · rw [if_neg hu, if_pos (by omega), digitChar_eq_ofNat (Nat.mod_lt u (by decide))]
      rw [Nat.mod_eq_of_lt (by omega)]

theorem sprintfUnknown_eq (t : Nat) : sprintfUnknown t = "Unknown-" ++ Nat.repr t := by
  unfold sprintfUnknown Nat.repr Nat.toDigits List.asString
  rw [fmtInteger10_eq_toDigitsCore (t + 1) t [] (Nat.lt_succ_self t)]

/-- C8: `MMDPTLVType.String` maps each known tag to its fixed name and every
other 16-bit tag `t` to `"Unknown-"` followed by the decimal representation
of `t`. -/
theorem C8_type_names :
    (MMDPTLVType.String 1 = "MACAddress" ∧ MMDPTLVType.String 5 = "Identity" ∧
      MMDPTLVType.String 7 = "Version" ∧ MMDPTLVType.String 8 = "Platform" ∧
      MMDPTLVType.String 10 = "Uptime" ∧ MMDPTLVType.String 11 = "SoftwareID" ∧
      MMDPTLVType.String 12 = "Board" ∧ MMDPTLVType.String 14 = "Unpack" ∧
      MMDPTLVType.String 15 = "IPv6Address" ∧ MMDPTLVType.String 16 = "InterfaceName" ∧
      MMDPTLVType.String 17 = "IPv4Address") ∧
    ∀ t : Nat, t < 65536 → t ∉ [1, 5, 7, 8, 10, 11, 12, 14, 15, 16, 17] →
      MMDPTLVType.String t = "Unknown-" ++ Nat.repr t := by
  refine ⟨⟨rfl, rfl, rfl, rfl, rfl, rfl, rfl, rfl, rfl, rfl, rfl⟩, ?_⟩
  intro t _ ht
  simp only [List.mem_cons, List.mem_singleton, List.not_mem_nil, or_false, not_or] at ht
  obtain ⟨h1, h5, h7, h8, h10, h11, h12, h14, h15, h16, h17⟩ := ht
  unfold MMDPTLVType.String
  simp only [MMDPTypeMACAddress, MMDPTypeIdentity, MMDPTypeVersion, MMDPTypePlatform,
    MMDPTypeSoftwareID, MMDPTypeBoard, MMDPTypeInterfaceName, MMDPTypeUptime, MMDPTypeUnpack,
    MMDPTypeIPv6Address, MMDPTypeIPv4Address]
  rw [if_neg h1, if_neg h5, if_neg h7, if_neg h8, if_neg h10, if_neg h11, if_neg h12,
    if_neg h14, if_neg h15, if_neg h16, if_neg h17]
  exact sprintfUnknown_eq t

theorem C8_type_names_witness : MMDPTLVType.String 999 = "Unknown-999" :=
  (C8_type_names.2 999 (by decide) (by decide)).trans (by decide)

/-! ## Errors -/

theorem DecodePacket_failsDry {b : List Byte} (h : FailsDry b) :
    DecodePacket b = .error .EOF := by
  rcases h with rfl | ⟨hd, ts, tail, hh, hts, rfl, hdry⟩
  · exact DecodePacket_short (by decide)
  · rw [List.append_assoc, DecodePacket_header hh, decodeLoop_encodeAll_ranDry hts hdry]

theorem DecodePacket_failsCutShort {b : List Byte} (h : FailsCutShort b) :
    DecodePacket b = .error .ErrUnexpectedEOF := by
  rcases h with ⟨h1, h3⟩ | ⟨hd, ts, tail, hh, hts, rfl, hcut⟩
  · rw [DecodePacket_short (by omega), if_neg]
    intro hnil
    rw [hnil] at h1
    simp at h1
  · rw [List.append_assoc, DecodePacket_header hh, decodeLoop_encodeAll_cutShort hts hcut]

/-- Every buffer decodes successfully, or fails dry, or fails cut short. -/
theorem DecodePacket_cases (b : List Byte) :
    (∃ pkt, DecodePacket b = .ok pkt) ∨ FailsDry b ∨ FailsCutShort b := by
  by_cases hlen : b.length < 4
  · by_cases hnil : b = []
    · exact Or.inr (Or.inl (Or.inl hnil))
    · refine Or.inr (Or.inr (Or.inl ⟨?_, by omega⟩))
      cases b with
      | nil => exact absurd rfl hnil
      | cons a r => simp
  · obtain ⟨hd, body, hh, rfl⟩ := exists_header (Nat.le_of_not_lt hlen)
    obtain ⟨ts, tail, hts, rfl, htail⟩ := exists_records_tail body
    rcases htail with rfl | hdry | hcut
    · exact Or.inl ⟨_, by rw [List.append_nil]; exact DecodePacket_encodeAll hh hts⟩
    · exact Or.inr (Or.inl (Or.inr ⟨hd, ts, tail, hh, hts, by simp, hdry⟩))
    · exact Or.inr (Or.inr (Or.inr ⟨hd, ts, tail, hh, hts, by simp, hcut⟩))

/-- C9, as stated, fails: the empty buffer fails with `io.EOF`, a buffer of
one byte fails with `io.ErrUnexpectedEOF`, so two failing buffers need not
return the same error value. -/
theorem C9_counterexample :
    DecodePacket [] = .error .EOF ∧ DecodePacket [0] = .error .ErrUnexpectedEOF ∧
      ¬ ∀ (b1 b2 : List Byte) (e1 e2 : IOError),
        DecodePacket b1 = .error e1 → DecodePacket b2 = .error e2 → e1 = e2 := by
  have h0 : DecodePacket [] = .error .EOF := DecodePacket_short (by decide)
  have h1 : DecodePacket [0] = .error .ErrUnexpectedEOF := DecodePacket_short (by decide)
  refine ⟨h0, h1, ?_⟩
  intro hall
  have := hall [] [0] _ _ h0 h1
  cases this

/-- C9, amended: the decoder has two error values. A decode fails with
`io.EOF` exactly when the read that ran out of input (header, length field or
payload) found no byte at all, and with `io.ErrUnexpectedEOF` exactly when
that read (header, type tag, length field or payload) found only part of the
bytes it needed. -/
theorem C9_two_error_values (b : List Byte) :
    (DecodePacket b = .error .EOF ↔ FailsDry b) ∧
      (DecodePacket b = .error .ErrUnexpectedEOF ↔ FailsCutShort b) := by
  constructor
  · constructor
    · intro h
      rcases DecodePacket_cases b with ⟨pkt, hok⟩ | hdry | hcut
      · rw [hok] at h; cases h
      · exact hdry
      · rw [DecodePacket_failsCutShort hcut] at h; cases h
    · exact DecodePacket_failsDry
  · constructor
    · intro h
      rcases DecodePacket_cases b with ⟨pkt, hok⟩ | hdry | hcut
      · rw [hok] at h; cases h
      · rw [DecodePacket_failsDry hdry] at h; cases h
      · exact hcut
    · exact DecodePacket_failsCutShort

/-! ## Value variants -/

/-- The variant of `valueOf` is determined by the tag. -/
theorem valueOf_variant (tag : Nat) (payload : List Byte) :
    ((∃ ns, valueOf tag payload = .Duration ns) ↔ tag = 10) ∧
      ((∃ mac, valueOf tag payload = .HardwareAddr mac) ↔ tag = 1) ∧
      ((∃ s, valueOf tag payload = .Str s) ↔ tag ∈ [5, 7, 8, 11, 12, 16]) ∧
      ((∃ ip, valueOf tag payload = .IP ip) ↔ tag ∈ [15, 17]) ∧
      ((∃ bs, valueOf tag payload = .Bytes bs) ↔
        (tag = 14 ∨ tag ∉ [1, 5, 7, 8, 10, 11, 12, 14, 15, 16, 17])) := by
  simp only [List.mem_cons, List.mem_singleton, List.not_mem_nil, or_false]
  unfold valueOf
  split_ifs with h1 h2 h3 h4 <;>
    simp only [Value.Duration.injEq, Value.HardwareAddr.injEq, Value.Str.injEq,
      Value.IP.injEq, Value.Bytes.injEq, exists_eq', exists_false, reduceCtorEq,
      true_iff, false_iff] <;>
    omega

/-- C10: for every buffer on which `DecodePacket` succeeds, every part of the
returned packet has the value variant determined by its type: `Duration` iff
the type is 10, `HardwareAddr` iff 1, `Str` iff one of 5, 7, 8, 11, 12, 16,
`IP` iff 15 or 17, `Bytes` iff 14 or not a known tag. -/
theorem C10_variant_determined_by_type (b : List Byte) (pkt : MMDPPacket)
    (h : DecodePacket b = .ok pkt) (p : MMDPPart) (hp : p ∈ pkt.Parts) :
    ((∃ ns, p.Value = .Duration ns) ↔ p.Typ = 10) ∧
      ((∃ mac, p.Value = .HardwareAddr mac) ↔ p.Typ = 1) ∧
      ((∃ s, p.Value = .Str s) ↔ p.Typ ∈ [5, 7, 8, 11, 12, 16]) ∧
      ((∃ ip, p.Value = .IP ip) ↔ p.Typ ∈ [15, 17]) ∧
      ((∃ bs, p.Value = .Bytes bs) ↔
        (p.Typ = 14 ∨ p.Typ ∉ [1, 5, 7, 8, 10, 11, 12, 14, 15, 16, 17])) := by
  obtain ⟨hd, ts, -, -, -, rfl⟩ := DecodePacket_ok_inv h
  obtain ⟨t, -, rfl⟩ := List.mem_map.1 hp
  exact valueOf_variant t.tag t.payload

theorem C10_variant_determined_by_type_witness :
    ((∃ ns, (⟨1, .HardwareAddr [2, 3]⟩ : MMDPPart).Value = .Duration ns) ↔
        (⟨1, .HardwareAddr [2, 3]⟩ : MMDPPart).Typ = 10) ∧
      ((∃ mac, (⟨1, .HardwareAddr [2, 3]⟩ : MMDPPart).Value = .HardwareAddr mac) ↔
        (⟨1, .HardwareAddr [2, 3]⟩ : MMDPPart).Typ = 1) ∧
      ((∃ s, (⟨1, .HardwareAddr [2, 3]⟩ : MMDPPart).Value = .Str s) ↔
        (⟨1, .HardwareAddr [2, 3]⟩ : MMDPPart).Typ ∈ [5, 7, 8, 11, 12, 16]) ∧
      ((∃ ip, (⟨1, .HardwareAddr [2, 3]⟩ : MMDPPart).Value = .IP ip) ↔
        (⟨1, .HardwareAddr [2, 3]⟩ : MMDPPart).Typ ∈ [15, 17]) ∧
      ((∃ bs, (⟨1, .HardwareAddr [2, 3]⟩ : MMDPPart).Value = .Bytes bs) ↔
        ((⟨1, .HardwareAddr [2, 3]⟩ : MMDPPart).Typ = 14 ∨
          (⟨1, .HardwareAddr [2, 3]⟩ : MMDPPart).Typ ∉
            [1, 5, 7, 8, 10, 11, 12, 14, 15, 16, 17])) :=
  C10_variant_determined_by_type [9, 0, 0, 0, 0, 5, 0, 1, 65, 0, 1, 0, 2, 2, 3]
    ⟨9, [⟨5, .Str [65]⟩, ⟨1, .HardwareAddr [2, 3]⟩]⟩
    (@DecodePacket_encodeAll [9, 0, 0, 0] rfl [⟨5, 1, [65]⟩, ⟨1, 2, [2, 3]⟩] (by decide))
    ⟨1, .HardwareAddr [2, 3]⟩ (by simp)

/-! ## Uptime records, header independence, duration arithmetic -/

/-- C11: an Uptime record needs 4 payload bytes whatever it declares: for every
buffer made of a 4-byte header, zero or more complete well-formed TLV
records, and then `bigEndian16 10 ++ bigEndian16 L` followed by fewer than 4
bytes, `DecodePacket` fails for every declared length `L`, also for `L = 0`
and for `L` equal to the number of bytes that remain. -/
theorem C11_truncated_uptime_fails (hd : List Byte) (ts : List TLV) (L : Nat)
    (p : List Byte) (hh : hd.length = 4) (hts : ∀ t ∈ ts, TLV.WellFormed t)
    (hL : L ≤ 65535) (hp : p.length < 4) :
    ∃ e, DecodePacket (hd ++ encodeAll ts ++ bigEndian16 10 ++ bigEndian16 L ++ p) =
      .error e := by
  have hneed : p.length < payloadNeed 10 L := by
    unfold payloadNeed
    rw [if_pos (show (10 : Nat) = MMDPTypeUptime from rfl)]
    exact hp
  refine ⟨if p = [] then .EOF else .ErrUnexpectedEOF, ?_⟩
  have hassoc : hd ++ encodeAll ts ++ bigEndian16 10 ++ bigEndian16 L ++ p =
      hd ++ (encodeAll ts ++ (bigEndian16 10 ++ bigEndian16 L ++ p)) := by
    simp only [List.append_assoc]
  rw [hassoc, DecodePacket_header hh, decodeLoop_records hts,
    decodeLoop_bigEndian16_short (by decide) (by omega) hneed]

theorem C11_truncated_uptime_fails_witness :
    ∃ e, DecodePacket ([1, 0, 0, 0] ++ encodeAll [⟨5, 3, [82, 79, 83]⟩] ++ bigEndian16 10 ++
      bigEndian16 2 ++ [100, 0]) = .error e :=
  C11_truncated_uptime_fails [1, 0, 0, 0] [⟨5, 3, [82, 79, 83]⟩] 2 [100, 0] rfl
    (by decide) (by decide) (by decide)

/-- C14: the first four bytes decide only the sequence number: for every two
4-byte headers and every body, the two decodes either both fail (with the
same error) or both succeed with identical parts, each with the little-endian
value of its own header as `SeqNo`. -/
theorem C14_header_decides_only_seqNo (h1 h2 body : List Byte) (hh1 : h1.length = 4)
    (hh2 : h2.length = 4) :
    (∃ e, DecodePacket (h1 ++ body) = .error e ∧ DecodePacket (h2 ++ body) = .error e) ∨
      ∃ parts, DecodePacket (h1 ++ body) = .ok ⟨littleEndianUint32 h1, parts⟩ ∧
        DecodePacket (h2 ++ body) = .ok ⟨littleEndianUint32 h2, parts⟩ := by
  rw [DecodePacket_header hh1, DecodePacket_header hh2]
  cases decodeLoop body [] with
  | error e => exact Or.inl ⟨e, rfl, rfl⟩
  | ok parts => exact Or.inr ⟨parts, rfl, rfl⟩

theorem C14_header_decides_only_seqNo_witness :
    (∃ e, DecodePacket ([1, 0, 0, 0] ++ [0, 5, 0, 1, 65]) = .error e ∧
        DecodePacket ([0, 0, 0, 2] ++ [0, 5, 0, 1, 65]) = .error e) ∨
      ∃ parts, DecodePacket ([1, 0, 0, 0] ++ [0, 5, 0, 1, 65]) =
          .ok ⟨littleEndianUint32 [1, 0, 0, 0], parts⟩ ∧
        DecodePacket ([0, 0, 0, 2] ++ [0, 5, 0, 1, 65]) =
          .ok ⟨littleEndianUint32 [0, 0, 0, 2], parts⟩ :=
  C14_header_decides_only_seqNo [1, 0, 0, 0] [0, 0, 0, 2] [0, 5, 0, 1, 65] rfl rfl

/-- C15: the Uptime `Duration` never overflows: for every unsigned 32-bit
seconds count `t`, `time.Second * time.Duration(t)` computed in signed 64-bit
nanoseconds is exactly `t * 1000000000`, which is below `2^63`; the duration
is non-negative and dividing it by one second (Go's truncating division)
gives back `t`. -/
theorem C15_uptime_duration_exact (t : Nat) (ht : t < 4294967296) :
    uptimeDuration t = (t : Int) * 1000000000 ∧
      (t : Int) * 1000000000 < 9223372036854775808 ∧
      0 ≤ uptimeDuration t ∧
      Int.tdiv (uptimeDuration t) timeSecond = (t : Int) := by
  have heq := uptimeDuration_eq ht
  refine ⟨by rw [heq]; ring, by omega, by rw [heq]; omega, ?_⟩
  rw [heq]
  unfold timeSecond
  rw [Int.tdiv_eq_ediv (by omega) (by decide)]
  omega

theorem C15_uptime_duration_exact_witness :
    uptimeDuration 4294967295 = (4294967295 : Int) * 1000000000 ∧
      ((4294967295 : Nat) : Int) * 1000000000 < 9223372036854775808 ∧
      0 ≤ uptimeDuration 4294967295 ∧
      Int.tdiv (uptimeDuration 4294967295) timeSecond = ((4294967295 : Nat) : Int) :=
  C15_uptime_duration_exact 4294967295 (by decide)

/-! ## Byte accounting and termination -/

theorem TLV.encode_length (t : TLV) : t.encode.length = 4 + t.payload.length := by
  simp only [TLV.encode, List.length_append, bigEndian16_length]

theorem valueOf_byteLength {tag : Nat} (h : tag ≠ MMDPTypeUptime) (payload : List Byte) :
    (valueOf tag payload).byteLength = payload.length := by
  have h10 : ¬ tag = 10 := h
  unfold valueOf
  split_ifs <;> rfl

/-- A complete record stands for as many payload bytes as it has. -/
theorem partSize_part {t : TLV} (h : t.WellFormed) : partSize t.part = t.payload.length := by
  obtain ⟨-, -, hp⟩ := h
  unfold partSize
  by_cases ht : t.tag = MMDPTypeUptime
  · rw [if_pos ht] at hp
    rw [if_pos (show t.part.Typ = MMDPTypeUptime from ht), hp]
  · rw [if_neg (show ¬ t.part.Typ = MMDPTypeUptime from ht)]
    exact valueOf_byteLength ht t.payload

/-- The bytes of a run of complete records are 4 header bytes and the payload
bytes of each. -/
theorem encodeAll_length {ts : List TLV} (h : ∀ t ∈ ts, t.WellFormed) :
    (encodeAll ts).length = ((ts.map TLV.part).map (fun p => 4 + partSize p)).sum := by
  induction ts with
  | nil => rfl
  | cons t ts ih =>
    rw [encodeAll_cons, List.length_append, TLV.encode_length,
      ih (fun u hu => h u (List.mem_cons_of_mem _ hu))]
    simp only [List.map_cons, List.sum_cons, partSize_part (h t (List.mem_cons_self _ _))]

/-- A sum of terms that are each at least 4 is at least 4 times their number. -/
theorem four_mul_length_le_sum (ps : List MMDPPart) :
    4 * ps.length ≤ (ps.map (fun p => 4 + partSize p)).sum := by
  induction ps with
  | nil => simp
  | cons p ps ih =>
    simp only [List.length_cons, List.map_cons, List.sum_cons]
    omega

/-- Every byte of a successfully decoded buffer is accounted for by the
header and the parts. -/
theorem DecodePacket_ok_length {b : List Byte} {pkt : MMDPPacket}
    (h : DecodePacket b = .ok pkt) :
    b.length = 4 + (pkt.Parts.map (fun p => 4 + partSize p)).sum := by
  obtain ⟨hd, ts, hh, hts, rfl, rfl⟩ := DecodePacket_ok_inv h
  rw [List.length_append, hh, encodeAll_length hts]

/-- Every round of the loop that goes round again has consumed at least the
four bytes of a TLV header. -/
theorem decodeLoop_round_decreases {r r1 r2 r3 : List Byte} {ty len : Nat} {v : Value}
    (h1 : binaryReadBigEndianUint16 r = .ok (ty, r1))
    (h2 : binaryReadBigEndianUint16 r1 = .ok (len, r2))
    (h3 : readPartValue ty len r2 = .ok (v, r3)) : r3.length + 4 ≤ r.length := by
  have a1 := binaryReadBigEndianUint16_length h1
  have a2 := binaryReadBigEndianUint16_length h2
  have a3 := readPartValue_length h3
  omega

/-- C12: `DecodePacket` terminates on every input buffer: its loop recurses
on the number of unread bytes, which every round that goes round again
decreases by at least 4, so every buffer gives an error or a packet, and a
packet decoded from `n ≥ 4` bytes has at most `(n - 4) / 2` parts. -/
theorem C12_terminates_with_bounded_parts (contents : List Byte) :
    ((∃ e, DecodePacket contents = .error e) ∨
        ∃ pkt, DecodePacket contents = .ok pkt ∧ 4 ≤ contents.length ∧
          pkt.Parts.length ≤ (contents.length - 4) / 2) ∧
      ∀ (r r1 r2 r3 : List Byte) (ty len : Nat) (v : Value),
        binaryReadBigEndianUint16 r = .ok (ty, r1) →
        binaryReadBigEndianUint16 r1 = .ok (len, r2) →
        readPartValue ty len r2 = .ok (v, r3) → r3.length < r.length := by
  constructor
  · cases hres : DecodePacket contents with
    | error e => exact Or.inl ⟨e, rfl⟩
    | ok pkt =>
      have hlen := DecodePacket_ok_length hres
      have hsum := four_mul_length_le_sum pkt.Parts
      exact Or.inr ⟨pkt, rfl, by omega, by omega⟩
  · intro r r1 r2 r3 ty len v h1 h2 h3
    have := decodeLoop_round_decreases h1 h2 h3
    omega

theorem C12_terminates_with_bounded_parts_witness :
    ∃ pkt, DecodePacket [1, 0, 0, 0, 0, 5, 0, 1, 65] = .ok pkt ∧
      4 ≤ [(1 : Byte), 0, 0, 0, 0, 5, 0, 1, 65].length ∧
      pkt.Parts.length ≤ ([(1 : Byte), 0, 0, 0, 0, 5, 0, 1, 65].length - 4) / 2 :=
  (C12_terminates_with_bounded_parts [1, 0, 0, 0, 0, 5, 0, 1, 65]).1.resolve_left (by
    rintro ⟨e, he⟩
    have hok : DecodePacket [1, 0, 0, 0, 0, 5, 0, 1, 65] = .ok ⟨1, [⟨5, .Str [65]⟩]⟩ :=
      @DecodePacket_encodeAll [1, 0, 0, 0] rfl [⟨5, 1, [65]⟩] (by decide)
    rw [hok] at he
    cases he)

/-- C13: every successful decode accounts for every input byte: if
`DecodePacket` succeeds on a buffer of `n` bytes with parts `p1..pk`, then
`n = 4 + sum of (4 + size pi)`, where the size is 4 for an Uptime part and the
byte length of the value for every other part; in particular `4 * k ≤ n - 4`. -/
theorem C13_every_byte_accounted (b : List Byte) (pkt : MMDPPacket)
    (h : DecodePacket b = .ok pkt) :
    b.length = 4 + (pkt.Parts.map (fun p => 4 + partSize p)).sum ∧
      4 * pkt.Parts.length ≤ b.length - 4 := by
  have hlen := DecodePacket_ok_length h
  have hsum := four_mul_length_le_sum pkt.Parts
  exact ⟨hlen, by omega⟩

theorem C13_every_byte_accounted_witness :
    [(9 : Byte), 0, 0, 0, 0, 10, 0, 0, 100, 0, 0, 0, 0, 1, 0, 2, 2, 3].length =
        4 + ((MMDPPacket.mk 9 [⟨10, .Duration (uptimeDuration 100)⟩,
          ⟨1, .HardwareAddr [2, 3]⟩]).Parts.map (fun p => 4 + partSize p)).sum ∧
      4 * (MMDPPacket.mk 9 [⟨10, .Duration (uptimeDuration 100)⟩,
          ⟨1, .HardwareAddr [2, 3]⟩]).Parts.length ≤
        [(9 : Byte), 0, 0, 0, 0, 10, 0, 0, 100, 0, 0, 0, 0, 1, 0, 2, 2, 3].length - 4 :=
  C13_every_byte_accounted [9, 0, 0, 0, 0, 10, 0, 0, 100, 0, 0, 0, 0, 1, 0, 2, 2, 3]
    ⟨9, [⟨10, .Duration (uptimeDuration 100)⟩, ⟨1, .HardwareAddr [2, 3]⟩]⟩
    (@DecodePacket_encodeAll [9, 0, 0, 0] rfl [⟨10, 0, [100, 0, 0, 0]⟩, ⟨1, 2, [2, 3]⟩]
      (by decide))

/-! ## Type names identify their tag -/

theorem charOfDigit_toNat {d : Nat} (h : d < 10) : (Char.ofNat (48 + d)).toNat = 48 + d := by
  interval_cases d <;> rfl

/-- The digit loop puts its digits in front of the buffer it is given. -/
theorem fmtInteger10_append (u : Nat) (buf : List Char) :
    fmtInteger10 u buf = fmtInteger10 u [] ++ buf := by
  induction u using Nat.strong_induction_on generalizing buf with
  | _ u ih =>
    rw [fmtInteger10.eq_1 u buf, fmtInteger10.eq_1 u []]
    by_cases hu : 10 ≤ u
    · rw [if_pos hu, if_pos hu, ih (u / 10) (by omega) (_ :: buf),
        ih (u / 10) (by omega) [_]]
      simp
    · rw [if_neg hu, if_neg hu]
      rfl

theorem digitsValue_append_singleton (cs : List Char) (c : Char) :
    digitsValue (cs ++ [c]) = 10 * digitsValue cs + (c.toNat - 48) := by
  simp [digitsValue, List.foldl_append]

/-- The digits the loop writes for `u` stand for `u`. -/
theorem digitsValue_fmtInteger10 (u : Nat) : digitsValue (fmtInteger10 u []) = u := by
  induction u using Nat.strong_induction_on with
  | _ u ih =>
    rw [fmtInteger10.eq_1 u []]
    by_cases hu : 10 ≤ u
    · rw [if_pos hu, fmtInteger10_append, digitsValue_append_singleton,
        ih (u / 10) (by omega), charOfDigit_toNat (by omega)]
      omega
    · have hc := charOfDigit_toNat (show u < 10 by omega)
      rw [if_neg hu]
      simp only [digitsValue, List.foldl_cons, List.foldl_nil, hc]
      omega

theorem sprintfUnknown_data (t : Nat) :
    (sprintfUnknown t).data = ['U', 'n', 'k', 'n', 'o', 'w', 'n', '-'] ++ fmtInteger10 t [] := by
  simp only [sprintfUnknown, String.data_append]

theorem sprintfUnknown_injective {a b : Nat} (h : sprintfUnknown a = sprintfUnknown b) :
    a = b := by
  have hd := congrArg String.data h
  rw [sprintfUnknown_data, sprintfUnknown_data] at hd
  have hds := List.append_cancel_left hd
  rw [← digitsValue_fmtInteger10 a, ← digitsValue_fmtInteger10 b, hds]

theorem String_of_unknown {t : Nat} (ht : t ∉ knownTags) :
    MMDPTLVType.String t = sprintfUnknown t := by
  simp only [knownTags, List.mem_cons, List.mem_singleton, List.not_mem_nil, or_false,
    not_or] at ht
  obtain ⟨h1, h5, h7, h8, h10, h11, h12, h14, h15, h16, h17⟩ := ht
  unfold MMDPTLVType.String
  simp only [MMDPTypeMACAddress, MMDPTypeIdentity, MMDPTypeVersion, MMDPTypePlatform,
    MMDPTypeSoftwareID, MMDPTypeBoard, MMDPTypeInterfaceName, MMDPTypeUptime, MMDPTypeUnpack,
    MMDPTypeIPv6Address, MMDPTypeIPv4Address]
  rw [if_neg h1, if_neg h5, if_neg h7, if_neg h8, if_neg h10, if_neg h11, if_neg h12,
    if_neg h14, if_neg h15, if_neg h16, if_neg h17]

/-- The eleven fixed names are pairwise distinct. -/
theorem String_known_ne :
    ∀ t1 ∈ knownTags, ∀ t2 ∈ knownTags, t1 ≠ t2 →
      MMDPTLVType.String t1 ≠ MMDPTLVType.String t2 := by
  decide

/-- None of the eleven fixed names starts like an unknown one. -/
theorem String_known_take :
    ∀ t ∈ knownTags, (MMDPTLVType.String t).data.take 3 ≠ ['U', 'n', 'k'] := by
  decide

theorem String_known_ne_unknown {t u : Nat} (ht : t ∈ knownTags) :
    MMDPTLVType.String t ≠ sprintfUnknown u := by
  intro h
  apply String_known_take t ht
  rw [h, sprintfUnknown_data]
  rfl

/-- C16: `MMDPTLVType.String` is injective: two distinct 16-bit tags have
distinct display names, so a display name identifies its tag. -/
theorem C16_type_names_injective (t1 t2 : Nat) (h1 : t1 < 65536) (h2 : t2 < 65536)
    (hne : t1 ≠ t2) : MMDPTLVType.String t1 ≠ MMDPTLVType.String t2 := by
  by_cases k1 : t1 ∈ knownTags
  · by_cases k2 : t2 ∈ knownTags
    · exact String_known_ne t1 k1 t2 k2 hne
    · rw [String_of_unknown k2]
      exact String_known_ne_unknown k1
  · by_cases k2 : t2 ∈ knownTags
    · rw [String_of_unknown k1]
      exact fun h => String_known_ne_unknown k2 h.symm
    · rw [String_of_unknown k1, String_of_unknown k2]
      exact fun h => hne (sprintfUnknown_injective h)

theorem C16_type_names_injective_witness :
    MMDPTLVType.String 14 ≠ MMDPTLVType.String 999 :=
  C16_type_names_injective 14 999 (by decide) (by decide) (by decide)

end mndp
